import Mathlib

/-!
Shallow embedding of the `imagemanage` repository (an image browsing and
managing tool) for verifying its natural-language specification.

The embedding covers:
* the input-mode state machine of `ImageManager` (`src/imagemanage.py`):
  `_on_command`, `_hide_textbox`, `_show_textbox`, `_key_rename_image`
  and the `_blocked_by_input` guard;
* the keybind table of `src/lib/qhelper.py` (`KeyBind.bind`,
  `KeyBind.__call__`) and `ImageManager._add_keybind`;
* index motion: `ImageManager.set_index`, `ImageManager._advance_index`;
* `iterate_from` (rotation iterator with an assertion on its start index);
* `format_size` (byte-count pretty printer);
* the file gatherer of `src/lib/fshelper.py` (`_get_files_of`, `get_files`)
  and `gather_images` of `src/imagemanage.py`.

Python integers are modelled as `Int`/`Nat`; Python floats inside
`format_size` are modelled as exact rationals (`ℚ`): every float operation
the modelled inputs perform (division by the scale, rounding, printing) is
exact at the values the theorems evaluate. Code that can raise is modelled
with `Except String`, the error payload standing for the raised exception.
-/

namespace ImageManage

/-! ## Input-mode state machine (`src/imagemanage.py`) -/

/-- The mode constants of `src/lib/constants.py`:
`MODE_NONE`, `MODE_RENAME`, `MODE_GOTO`, `MODE_SET_IMAGE`, `MODE_LABEL`,
`MODE_COMMAND`. -/
inductive Mode where
| NONE
| RENAME
| GOTO
| SET_IMAGE
| LABEL
| COMMAND
deriving DecidableEq

/-- The window state of `ImageManager` that the mode machine touches:
the stored mode (`self._mode`), the text input box (visibility, focus and
content of `self._main.textbox`), and the current image index
(`self._index`). -/
structure IMState where
  mode : Mode
  textVisible : Bool
  textFocused : Bool
  textContent : String
  index : Nat
deriving DecidableEq

/-- `ImageManager._hide_textbox`: clear focus if the box has focus, then
make it invisible if it is visible.  The text content is not touched. -/
def hide_textbox (s : IMState) : IMState :=
  let s1 := if s.textFocused then { s with textFocused := false } else s
  if s1.textVisible then { s1 with textVisible := false } else s1

/-- `ImageManager._show_textbox`: make the box visible if it is invisible,
then give it focus if it lacks focus. -/
def show_textbox (s : IMState) : IMState :=
  let s1 := if s.textVisible then s else { s with textVisible := true }
  if s1.textFocused then s1 else { s1 with textFocused := true }

/-- `ImageManager._on_command` (the `returnPressed` handler): capture the
current mode, reset the stored mode to `MODE_NONE`, read the textbox text
(`text = self.textbox.text()` reads without clearing), hide the textbox,
then dispatch on the captured mode.  In the source every dispatch branch is
`pass` (the `else` branch only logs a warning), so the dispatch changes no
state; we return the captured mode and text to expose what was dispatched. -/
def on_command (s : IMState) : IMState × Mode × String :=
  let mode := s.mode
  let s1 := { s with mode := Mode.NONE }
  let text := s1.textContent
  let s2 := hide_textbox s1
  (s2, mode, text)

/-- `ImageManager._key_rename_image` together with its `_blocked_by_input`
decorator: if the textbox has focus the wrapped call returns immediately
(no state change); otherwise set `self._mode = MODE_RENAME` and show the
textbox. -/
def key_rename_image (s : IMState) : IMState :=
  if s.textFocused then s
  else show_textbox { s with mode := Mode.RENAME }

/-! ## Keybind table (`src/lib/qhelper.py`) -/

/-- A Python callable bound into a `KeyBind`: when invoked it either
completes normally (recording its `tag`) or raises an exception carrying a
message. -/
inductive Member where
| act (tag : Nat)
| raises (msg : String)
deriving DecidableEq

/-- `KeyBind` of `src/lib/qhelper.py`: a key-combination string and the
ordered list of bound callables (`self._functions`). -/
structure KeyBind where
  keys : String
  functions : List Member
deriving DecidableEq

/-- The module-level names defined in `src/lib/qhelper.py`: its imports
(`import logging`, `from PySide6.QtGui import QAction`, `import lib.log`)
and its module-level definitions (`logger`, `KeyBind`, `menu_item`).
The module never imports `functools`. -/
def qhelper_globals : List String :=
  ["logging", "QAction", "lib", "logger", "KeyBind", "menu_item"]

/-- `KeyBind.bind`: the body immediately evaluates `functools.wraps(function)`
to build a wrapper around `function`, then appends the wrapper to
`self._functions`.  Evaluating the global name `functools` looks it up in the
module namespace of `qhelper.py`; if the name is absent Python raises
`NameError` before anything is appended.  The wrapper closes over the
partially-applied arguments; the `Member` abstraction keeps the callable
opaque. -/
def KeyBind.bind (kb : KeyBind) (function : Member) : Except String KeyBind :=
  if "functools" ∈ qhelper_globals then
    Except.ok { kb with functions := kb.functions ++ [function] }
  else
    Except.error "NameError: name functools is not defined"

/-- The loop body of `KeyBind.__call__`: invoke every bound function in
order.  Returns the tags of the members that completed, in invocation
order, together with the exception (if any) that propagated out of the
loop.  The source has no `try`/`except` around `func(*args, **kwargs)`, so
a raised exception aborts the loop. -/
def invoke_funcs : List Member → List Nat × Option String
| [] => ([], none)
| Member.act t :: rest =>
  let r := invoke_funcs rest
  (t :: r.1, r.2)
| Member.raises m :: _ => ([], some m)

/-- `KeyBind.__call__` on a keybind instance. -/
def KeyBind.call (kb : KeyBind) : List Nat × Option String :=
  invoke_funcs kb.functions

/-- `ImageManager._add_keybind`: if `keys` is unseen, create a fresh
`KeyBind` wrapping the function and register it; otherwise call
`self._keybinds[keys].bind(...)` on the existing entry.  The keybind dict
is modelled as an association list. -/
def add_keybind (keybinds : List (String × KeyBind)) (keys : String)
    (function : Member) : Except String (List (String × KeyBind)) :=
  match keybinds.lookup keys with
  | none => Except.ok (keybinds ++ [(keys, KeyBind.mk keys [function])])
  | some kb =>
    match kb.bind function with
    | Except.ok kb2 =>
      Except.ok (keybinds.map fun p => if p.1 = keys then (p.1, kb2) else p)
    | Except.error e => Except.error e

/-! ## Index motion (`src/imagemanage.py`) -/

/-- `ImageManager.set_index`: raise `ValueError` when the requested index is
outside `[0, count)`, otherwise store it (the subsequent `redraw` is
display-only and is elided). -/
def set_index (count : Nat) (idx : Int) : Except String Int :=
  if idx < 0 ∨ (count : Int) ≤ idx then
    Except.error "ValueError: index outside range"
  else
    Except.ok idx

/-- `ImageManager._advance_index`:
`self.set_index((self.index + by) % self.count)`.  Python `%` with a
positive divisor returns a value in `[0, count)`, which is `Int.emod`. -/
def advance_index (count : Nat) (index amount : Int) : Except String Int :=
  set_index count ((index + amount) % (count : Int))

/-! ## `iterate_from` (`src/imagemanage.py`) -/

/-- `iterate_from(sequence, start_index)`: a generator that yields the whole
sequence as a rotation starting at `start_index`.  A negative start index is
first shifted by the length; then `assert 0 <= curr < length` fires (before
the first `yield`) if the shifted index is out of range.  The first `while`
loop yields `sequence[curr]` for `curr` in `[start, length)`, i.e. exactly
`sequence.drop start`; the second yields `sequence[curr]` for `curr` in
`[0, start)`, i.e. exactly `sequence.take start`.  The asserted generator is
modelled as `Except`, the error standing for `AssertionError`. -/
def iterate_from {α : Type} (sequence : List α) (start_index : Int) :
    Except String (List α) :=
  let length : Int := sequence.length
  let start := if start_index < 0 then start_index + length else start_index
  if 0 ≤ start ∧ start < length then
    Except.ok (sequence.drop start.toNat ++ sequence.take start.toNat)
  else
    Except.error "AssertionError: start outside the half interval"

/-! ## `format_size` (`src/imagemanage.py`)

Python floats are modelled as exact rationals.  At every input the theorems
below evaluate, the float operations performed by the source are exact, so
the model agrees with the running code there. -/

/-- The prefix table of `format_size`. -/
def prefixes : List String := ["", "K", "M", "G", "T", "P"]

/-- The initial `scale` of `format_size`: `1024.0`, overwritten with
`1000.0` when `base == 10`. -/
def fs_scale (base : Nat) : ℚ := if base = 10 then 1000 else 1024

/-- The `while` loop of `format_size`:
`while value >= scale and exponent+1 < len(prefixes): value /= scale;
exponent += 1`.  The loop is phrased structurally on the number of
iterations still allowed, `fuel = len(prefixes) - 1 - exponent`, which the
guard `exponent+1 < len(prefixes)` keeps positive; the top-level call uses
`fuel = len(prefixes) - 1`. -/
def fs_loop (scale value : ℚ) (exponent fuel : Nat) : ℚ × Nat :=
  match fuel with
  | 0 => (value, exponent)
  | fuel' + 1 =>
    if scale ≤ value then fs_loop scale (value / scale) (exponent + 1) fuel'
    else (value, exponent)

/-- Python `round` to the nearest integer, halves to even (exact on the
rational model). -/
def round_half_even (x : ℚ) : ℤ :=
  if x - Int.floor x < 1/2 then Int.floor x
  else if (1:ℚ)/2 < x - Int.floor x then Int.floor x + 1
  else if Int.floor x % 2 = 0 then Int.floor x else Int.floor x + 1

/-- Python `round(x, places)` with a non-negative number of places. -/
def py_round (x : ℚ) (places : Nat) : ℚ :=
  ((round_half_even (x * 10 ^ places) : ℤ) : ℚ) / 10 ^ places

/-- Decimal digits of a fractional part `r` (with `0 ≤ r < 1`), produced by
long division; empty once the expansion terminates.  Thirty digits of fuel
cover every value the theorems evaluate exactly. -/
def frac_digits : ℚ → Nat → String
| _, 0 => ""
| r, fuel + 1 =>
  if r = 0 then ""
  else toString (Int.floor (r * 10)) ++ frac_digits (r * 10 - Int.floor (r * 10)) fuel

/-- Python `str()` of a float whose decimal expansion terminates: the
integer part, a dot, and the fractional digits (a bare `0` when the value
is integral), which is the shortest round-tripping form Python prints. -/
def render_float (v : ℚ) : String :=
  let ds := frac_digits (v - Int.floor v) 30
  toString (Int.floor v) ++ "." ++ (if ds = "" then "0" else ds)

/-- `format_size(num_bytes, places, base)` with the default format string
`"{num} {suffix}"`, so the result is the rendered number, a space, and the
unit.  `suffix` becomes `"iB"` only when `base == 10` and
`num_bytes >= 1000`; the loop scales the value down; `places` of `none`
disables rounding, `some 0` additionally converts to `int` (so the number
renders without a decimal point). -/
def format_size (num_bytes : ℚ) (places : Option Nat) (base : Nat) : String :=
  let scale := fs_scale base
  let suffix := if base = 10 ∧ 1000 ≤ num_bytes then "iB" else "B"
  let r := fs_loop scale num_bytes 0 (prefixes.length - 1)
  let value := match places with
    | some p => py_round r.1 p
    | none => r.1
  let unit := prefixes.getD r.2 "" ++ suffix
  let num_str := if places = some 0 then toString (Int.floor value)
    else render_float value
  num_str ++ " " ++ unit

/-! ## File gatherer (`src/lib/fshelper.py`, `src/imagemanage.py`) -/

/-- The filesystem as seen through the predicates `_get_files_of` consults:
an entry either does not exist (`os.path.exists` is false), is a directory
(`os.path.isdir`, with `os.listdir` children), is a regular file
(`os.path.isfile`), or exists but is neither file nor directory (a special
file: `_get_files_of` warns and yields it anyway). -/
inductive FSObj where
| missing (path : String)
| file (path : String)
| special (path : String)
| dir (path : String) (children : List FSObj)

/-- Whether an entry is a non-existent path. -/
def FSObj.isMissing : FSObj → Bool
| .missing _ => true
| _ => false

mutual

/-- `_get_files_of(entry, depth, depth_max, soft_errors)`: a missing entry
raises `FileNotFoundError` unless `soft_errors` (then it is logged and
yields nothing); a directory recurses over its children when
`depth_max == -1` or `depth + 1 <= depth_max` and otherwise only logs a
skip notice; anything else (file or special) is yielded.  The generator
with a possible exception is modelled as `Except`. -/
def get_files_of : FSObj → Int → Int → Bool → Except String (List String)
| FSObj.missing p, _, _, soft_errors =>
  if soft_errors then Except.ok [] else Except.error p
| FSObj.dir _ children, depth, depth_max, soft_errors =>
  if depth_max = -1 ∨ depth + 1 ≤ depth_max then
    get_files_list children (depth + 1) depth_max soft_errors
  else Except.ok []
| FSObj.file p, _, _, _ => Except.ok [p]
| FSObj.special p, _, _, _ => Except.ok [p]

/-- The traversal of a list of entries in order, extending one combined
result list; an exception from one entry aborts the whole traversal (in
`get_files`, `results.extend(...)` forces each generator in turn, the
local `results` being discarded when an exception propagates). -/
def get_files_list : List FSObj → Int → Int → Bool → Except String (List String)
| [], _, _, _ => Except.ok []
| e :: rest, depth, depth_max, soft_errors =>
  match get_files_of e depth depth_max soft_errors with
  | Except.error err => Except.error err
  | Except.ok a =>
    match get_files_list rest depth depth_max soft_errors with
    | Except.error err => Except.error err
    | Except.ok b => Except.ok (a ++ b)

end

/-- `get_files(entry_list, recurse_max, soft_errors)`: fold `_get_files_of`
over the entries starting at depth 0. -/
def get_files (entry_list : List FSObj) (recurse_max : Int)
    (soft_errors : Bool) : Except String (List String) :=
  get_files_list entry_list 0 recurse_max soft_errors

/-- The recursion bound `gather_images` passes to `get_files`:
`recurse_max = -1 if recurse else 1`. -/
def gather_recurse_max (recurse : Bool) : Int :=
  if recurse then -1 else 1

/-- `gather_images(image_list, file_list, recurse, soft_errors)` restricted
to its file-gathering core: the `-F` listing files are read line by line
into the same `inputs` list before `get_files` runs (that I/O is elided
here; `inputs` stands for the combined list), and the gathered images are
`get_files(inputs, -1 if recurse else 1, soft_errors)`. -/
def gather_images (inputs : List FSObj) (recurse soft_errors : Bool) :
    Except String (List String) :=
  get_files inputs (gather_recurse_max recurse) soft_errors

/-- A direct child of a directory that a depth-1 scan yields: a regular
file or a special file, but not a subdirectory and not a missing entry. -/
def direct_file : FSObj → Option String
| FSObj.file p => some p
| FSObj.special p => some p
| _ => none

/-! ## Theorems -/

/-- Claim C1, counterexample: the claim states that after every submission
the input box text is empty, but `_on_command` only reads
`self.textbox.text()` and never clears it.  Submitting in RENAME mode with
text `newname.png` leaves the (hidden) box still holding `newname.png`. -/
theorem on_command_text_not_cleared :
    (on_command (IMState.mk Mode.RENAME true true "newname.png" 0)).1.textContent
      ≠ "" := by
  decide

/-- Claim C1 (amended): when text is submitted, `_on_command` captures the
current mode, resets the stored mode to `MODE_NONE`, reads the input box
text (without clearing it), hides the input box (invisible and unfocused),
and dispatches on the captured mode — so after every submission the mode is
`NONE` and the box is hidden, but its text is unchanged rather than empty. -/
theorem on_command_spec (s : IMState) :
    on_command s =
      ({ s with mode := Mode.NONE, textVisible := false, textFocused := false },
        s.mode, s.textContent) := by
  obtain ⟨m, tv, tf, tc, i⟩ := s
  cases tv <;> cases tf <;> rfl

/-- Claim C2 (code bug): `KeyBind.bind` immediately evaluates
`functools.wraps(function)`, but `src/lib/qhelper.py` never imports
`functools` (its module namespace holds only `logging`, `QAction`, `lib`,
`logger`, `KeyBind` and `menu_item`), so registering a second action under
an already-registered key raises `NameError` instead of appending: the
second action is never registered and triggering invokes only the first,
contradicting the class docstring and the claim. -/
theorem keybind_bind_nameerror :
    "functools" ∉ qhelper_globals
    ∧ (KeyBind.mk "Shift+r" [Member.act 1]).bind (Member.act 2)
        = Except.error "NameError: name functools is not defined"
    ∧ add_keybind [("Shift+r", KeyBind.mk "Shift+r" [Member.act 1])]
        "Shift+r" (Member.act 2)
        = Except.error "NameError: name functools is not defined" :=
  ⟨by decide, rfl, rfl⟩

/-- Claim C3, counterexample: `KeyBind.__call__` has no exception handling,
so with members `[raises, act 7]` the trigger propagates the exception and
the second bound member is never invoked, although the claim requires every
bound member to be invoked regardless of earlier failures. -/
theorem keybind_call_exception_stops :
    Member.act 7 ∈ (KeyBind.mk "x" [Member.raises "boom", Member.act 7]).functions
    ∧ (KeyBind.mk "x" [Member.raises "boom", Member.act 7]).call = ([], some "boom")
    ∧ 7 ∉ (KeyBind.mk "x" [Member.raises "boom", Member.act 7]).call.1 := by
  decide

/-- Claim C3 (amended): triggering invokes the bound members in order only
up to the first one that raises: the members before it are each invoked
exactly once, the exception propagates out of the trigger, and the members
after it are not invoked at all.  When no member raises, every member is
invoked exactly once in registration order. -/
theorem keybind_call_spec (k : String) (pre : List Nat) (m : String)
    (post : List Member) :
    (KeyBind.mk k (pre.map Member.act ++ Member.raises m :: post)).call
        = (pre, some m)
    ∧ (KeyBind.mk k (pre.map Member.act)).call = (pre, none) := by
  induction pre with
  | nil => exact ⟨rfl, rfl⟩
  | cons t pre ih =>
    have h1 := ih.1
    have h2 := ih.2
    simp only [KeyBind.call] at h1 h2 ⊢
    constructor
    · simp only [List.map_cons, List.cons_append, invoke_funcs, List.append_eq]
      rw [h1]
    · simp only [List.map_cons, invoke_funcs, List.append_eq]
      rw [h2]

/-- Claim C4: if the text input box has focus when the RENAME-entry key
action fires, the `_blocked_by_input` guard returns before calling the
wrapped `_key_rename_image`, so the whole window state (mode, textbox
visibility and the rest of the modelled window state) is unchanged. -/
theorem key_rename_blocked_spec (s : IMState) (h : s.textFocused = true) :
    key_rename_image s = s := by
  simp [key_rename_image, h]

/-- Witness for `key_rename_blocked_spec` at a concrete focused state. -/
theorem key_rename_blocked_witness :
    (IMState.mk Mode.NONE true true "abc" 3).textFocused = true
    ∧ key_rename_image (IMState.mk Mode.NONE true true "abc" 3)
        = IMState.mk Mode.NONE true true "abc" 3 :=
  ⟨rfl, key_rename_blocked_spec (IMState.mk Mode.NONE true true "abc" 3) rfl⟩

/-- Claim C5: for a non-empty image sequence, `_advance_index` sets the
index to `(index + amount) % count` (Python `%` with a positive divisor,
i.e. `Int.emod`), so advancing past the last image wraps to `0`, advancing
before index `0` wraps to `count - 1`, and with 5 images, index 0 and
amount 10 the new index is 0. -/
theorem advance_index_spec (n : Nat) (i a : Int) (hn : 0 < n)
    (hi0 : 0 ≤ i) (hin : i < (n : Int)) :
    advance_index n i a = Except.ok ((i + a) % (n : Int))
    ∧ advance_index n ((n : Int) - 1) 1 = Except.ok 0
    ∧ advance_index n 0 (-1) = Except.ok ((n : Int) - 1)
    ∧ advance_index 5 0 10 = Except.ok 0 := by
  have hn' : (0 : Int) < n := by exact_mod_cast hn
  refine ⟨?_, ?_, ?_, rfl⟩
  · have h1 : 0 ≤ (i + a) % (n : Int) := Int.emod_nonneg _ (ne_of_gt hn')
    have h2 : (i + a) % (n : Int) < n := Int.emod_lt_of_pos _ hn'
    unfold advance_index set_index
    rw [if_neg]
    push_neg
    exact ⟨h1, h2⟩
  · have h0 : ((n : Int) - 1 + 1) % (n : Int) = 0 := by
      rw [sub_add_cancel, Int.emod_self]
    unfold advance_index set_index
    rw [h0, if_neg]
    push_neg
    exact ⟨le_refl 0, hn'⟩
  · have h0 : ((0 : Int) + -1) % (n : Int) = (n : Int) - 1 := by
      have e1 := Int.add_mul_emod_self_left (a := (-1 : Int)) (b := (n : Int)) (c := 1)
      have e2 : (-1 : Int) + (n : Int) * 1 = (n : Int) - 1 := by ring
      rw [e2] at e1
      have e3 : ((n : Int) - 1) % (n : Int) = (n : Int) - 1 :=
        Int.emod_eq_of_lt (by omega) (by omega)
      have e4 : ((0 : Int) + -1) = (-1 : Int) := by ring
      rw [e4, ← e1]
      exact e3
    unfold advance_index set_index
    rw [h0, if_neg]
    push_neg
    exact ⟨by omega, by omega⟩

/-- Witness for `advance_index_spec` at 3 images, index 1, amount 4. -/
theorem advance_index_witness :
    0 < 3 ∧ (0 : Int) ≤ 1 ∧ (1 : Int) < ((3 : Nat) : Int)
    ∧ (advance_index 3 1 4 = Except.ok ((1 + 4) % ((3 : Nat) : Int))
      ∧ advance_index 3 (((3 : Nat) : Int) - 1) 1 = Except.ok 0
      ∧ advance_index 3 0 (-1) = Except.ok (((3 : Nat) : Int) - 1)
      ∧ advance_index 5 0 10 = Except.ok 0) :=
  ⟨by decide, by decide, by decide,
    advance_index_spec 3 1 4 (by decide) (by decide) (by decide)⟩

/-- Claim C6: for a non-empty sequence and a start index `s` in `[0, n)`,
iterating from `s` and from `s - n` produce the same output, namely the
rotation `seq[s..n-1] ++ seq[0..s-1]`, which is a permutation of the
original sequence (each position contributing exactly once). -/
theorem iterate_from_rotation_spec {α : Type} (seq : List α) (s : Nat)
    (h : s < seq.length) :
    iterate_from seq (s : Int) = Except.ok (seq.drop s ++ seq.take s)
    ∧ iterate_from seq ((s : Int) - seq.length) = iterate_from seq (s : Int)
    ∧ List.Perm (seq.drop s ++ seq.take s) seq := by
  have hs0 : (0 : Int) ≤ (s : Int) := Int.natCast_nonneg s
  have hsl : (s : Int) < (seq.length : Int) := by exact_mod_cast h
  have key : iterate_from seq (s : Int) = Except.ok (seq.drop s ++ seq.take s) := by
    simp only [iterate_from]
    rw [if_neg (not_lt.mpr hs0), if_pos ⟨hs0, hsl⟩, Int.toNat_natCast]
  have key2 : iterate_from seq ((s : Int) - seq.length)
      = Except.ok (seq.drop s ++ seq.take s) := by
    simp only [iterate_from]
    have hneg : (s : Int) - seq.length < 0 := by omega
    rw [if_pos hneg]
    have hshift : (s : Int) - seq.length + seq.length = (s : Int) := by ring
    rw [hshift, if_pos ⟨hs0, hsl⟩, Int.toNat_natCast]
  have hperm : List.Perm (seq.drop s ++ seq.take s) (seq.take s ++ seq.drop s) :=
    List.perm_append_comm
  have heq : seq.take s ++ seq.drop s = seq := List.take_append_drop s seq
  exact ⟨key, key2.trans key.symm, by rwa [heq] at hperm⟩

/-- Witness for `iterate_from_rotation_spec` on `[10, 20, 30]` from index 2. -/
theorem iterate_from_rotation_witness :
    2 < [10, 20, 30].length
    ∧ (iterate_from [10, 20, 30] ((2 : Nat) : Int)
          = Except.ok ([10, 20, 30].drop 2 ++ [10, 20, 30].take 2)
      ∧ iterate_from [10, 20, 30] (((2 : Nat) : Int) - [10, 20, 30].length)
          = iterate_from [10, 20, 30] ((2 : Nat) : Int)
      ∧ List.Perm ([10, 20, 30].drop 2 ++ [10, 20, 30].take 2) [10, 20, 30]) :=
  ⟨by decide, iterate_from_rotation_spec [10, 20, 30] 2 (by decide)⟩

/-- Claim C7: a start index outside `[-n, n-1]` makes `iterate_from` fail
with the `AssertionError` of its contract check before yielding anything;
it is never clamped or wrapped into range. -/
theorem iterate_from_out_of_range_spec {α : Type} (seq : List α) (start : Int)
    (h : start < -(seq.length : Int) ∨ (seq.length : Int) ≤ start) :
    ∃ msg, iterate_from seq start = Except.error msg := by
  refine ⟨"AssertionError: start outside the half interval", ?_⟩
  simp only [iterate_from]
  rcases h with h | h
  · have hneg : start < 0 := by omega
    rw [if_pos hneg, if_neg (by omega)]
  · rw [if_neg (by omega : ¬ start < 0), if_neg (by omega)]

/-- Witness for `iterate_from_out_of_range_spec` at start index 5 on a
three-element sequence. -/
theorem iterate_from_out_of_range_witness :
    ((5 : Int) < -(([1, 2, 3] : List Nat).length : Int)
        ∨ (([1, 2, 3] : List Nat).length : Int) ≤ 5)
    ∧ ∃ msg, iterate_from ([1, 2, 3] : List Nat) 5 = Except.error msg :=
  ⟨by decide, iterate_from_out_of_range_spec [1, 2, 3] 5 (by decide)⟩

/-- Helper: with soft errors off, a missing entry anywhere in the list makes
the whole traversal raise. -/
theorem get_files_list_missing (p : String) :
    ∀ (entries : List FSObj) (d dm : Int), FSObj.missing p ∈ entries →
    ∃ err, get_files_list entries d dm false = Except.error err := by
  intro entries
  induction entries with
  | nil => intro d dm h; simp at h
  | cons e rest ih =>
    intro d dm h
    rcases List.mem_cons.mp h with he | hr
    · refine ⟨p, ?_⟩
      rw [← he]
      rfl
    · obtain ⟨err, herr⟩ := ih d dm hr
      cases hge : get_files_of e d dm false with
      | error msg => exact ⟨msg, by simp [get_files_list, hge]⟩
      | ok a => exact ⟨err, by simp [get_files_list, hge, herr]⟩

/-- Helper: with soft errors on, a missing entry is skipped and contributes
nothing: the traversal is the same as without the entry. -/
theorem get_files_list_skip (q : String) :
    ∀ (pre post : List FSObj) (d dm : Int),
    get_files_list (pre ++ FSObj.missing q :: post) d dm true
      = get_files_list (pre ++ post) d dm true := by
  intro pre
  induction pre with
  | nil =>
    intro post d dm
    rw [List.nil_append, List.nil_append]
    cases hpost : get_files_list post d dm true with
    | error msg => simp [get_files_list, get_files_of, hpost]
    | ok b => simp [get_files_list, get_files_of, hpost]
  | cons e pre ih =>
    intro post d dm
    rw [List.cons_append, List.cons_append]
    cases hge : get_files_of e d dm true with
    | error msg => simp [get_files_list, hge]
    | ok a => simp [get_files_list, hge, ih post d dm]

/-- Claim C8: if the input entry list contains a non-existent path, the
gather fails with the `FileNotFoundError` when soft errors are off; with
soft errors on, the missing entry is logged and skipped while every other
entry is still processed — the result is exactly the gather of the list
without the missing entry, so it contains no contribution from it. -/
theorem get_files_missing_spec (entries pre post : List FSObj) (p q : String)
    (rm : Int) (h : FSObj.missing p ∈ entries) :
    (∃ err, get_files entries rm false = Except.error err)
    ∧ get_files (pre ++ FSObj.missing q :: post) rm true
        = get_files (pre ++ post) rm true :=
  ⟨get_files_list_missing p entries 0 rm h, get_files_list_skip q pre post 0 rm⟩

/-- Witness for `get_files_missing_spec`: a singleton missing entry fails
hard, and skipping a missing entry between two files keeps both files. -/
theorem get_files_missing_witness :
    FSObj.missing "gone" ∈ [FSObj.missing "gone"]
    ∧ ((∃ err, get_files [FSObj.missing "gone"] 1 false = Except.error err)
      ∧ get_files ([FSObj.file "a"] ++ FSObj.missing "gone2" :: [FSObj.file "b"]) 1 true
          = get_files ([FSObj.file "a"] ++ [FSObj.file "b"]) 1 true) :=
  ⟨List.mem_singleton_self _,
    get_files_missing_spec [FSObj.missing "gone"] [FSObj.file "a"] [FSObj.file "b"]
      "gone" "gone2" 1 (List.mem_singleton_self _)⟩

/-- Helper: a depth-1 scan of a directory's children (none missing) yields
exactly the regular and special files among them, in order; subdirectories
are skipped. -/
theorem get_files_list_depth1 (soft : Bool) :
    ∀ (children : List FSObj), (∀ c ∈ children, c.isMissing = false) →
    get_files_list children 1 1 soft
      = Except.ok (children.filterMap direct_file) := by
  intro children
  induction children with
  | nil => intro h; rfl
  | cons c rest ih =>
    intro h
    have hc := h c (List.mem_cons_self c rest)
    have hrest := ih fun x hx => h x (List.mem_cons_of_mem c hx)
    cases c with
    | missing p => simp [FSObj.isMissing] at hc
    | file p => simp [get_files_list, get_files_of, hrest, direct_file]
    | special p => simp [get_files_list, get_files_of, hrest, direct_file]
    | dir p ch =>
      have hskip : get_files_of (FSObj.dir p ch) 1 1 soft = Except.ok [] := by
        simp only [get_files_of]
        norm_num
      simp [get_files_list, hskip, hrest, direct_file]

/-- Claim C10: without the recurse flag, `gather_images` calls the file
gatherer with maximum depth `1`, never `0`: files (and special files)
directly inside a directory argument are still gathered, only its
subdirectories are skipped; the depth-0 behaviour, which would skip the
directory entirely, is unreachable from the command-line surface. -/
theorem gather_images_depth_spec (p : String) (children : List FSObj)
    (soft : Bool) (h : ∀ c ∈ children, c.isMissing = false) :
    (∀ r, gather_recurse_max r ≠ 0)
    ∧ gather_recurse_max false = 1
    ∧ gather_images [FSObj.dir p children] false soft
        = Except.ok (children.filterMap direct_file)
    ∧ get_files [FSObj.dir p children] 0 soft = Except.ok [] := by
  refine ⟨?_, rfl, ?_, ?_⟩
  · intro r; cases r <;> decide
  · show get_files_list [FSObj.dir p children] 0 1 soft = _
    have hch := get_files_list_depth1 soft children h
    have hdir : get_files_of (FSObj.dir p children) 0 1 soft
        = Except.ok (children.filterMap direct_file) := by
      simp only [get_files_of]
      norm_num [hch]
    simp [get_files_list, hdir]
  · show get_files_list [FSObj.dir p children] 0 0 soft = _
    have hdir : get_files_of (FSObj.dir p children) 0 0 soft = Except.ok [] := by
      simp only [get_files_of]
      norm_num
    simp [get_files_list, hdir]

/-- Witness for `gather_images_depth_spec` on a directory holding a file, a
subdirectory and a special file. -/
theorem gather_images_depth_witness :
    (∀ c ∈ [FSObj.file "a.png", FSObj.dir "sub" [FSObj.file "b.png"],
        FSObj.special "dev"], c.isMissing = false)
    ∧ ((∀ r, gather_recurse_max r ≠ 0)
      ∧ gather_recurse_max false = 1
      ∧ gather_images [FSObj.dir "imgs" [FSObj.file "a.png",
            FSObj.dir "sub" [FSObj.file "b.png"], FSObj.special "dev"]] false false
          = Except.ok ([FSObj.file "a.png", FSObj.dir "sub" [FSObj.file "b.png"],
              FSObj.special "dev"].filterMap direct_file)
      ∧ get_files [FSObj.dir "imgs" [FSObj.file "a.png",
            FSObj.dir "sub" [FSObj.file "b.png"], FSObj.special "dev"]] 0 false
          = Except.ok []) :=
  ⟨by decide,
    gather_images_depth_spec "imgs" [FSObj.file "a.png",
      FSObj.dir "sub" [FSObj.file "b.png"], FSObj.special "dev"] false (by decide)⟩

/-- Helper: one iteration of the `format_size` loop when the guard holds. -/
theorem fs_loop_step (scale value : ℚ) (exponent fuel : Nat) (h : scale ≤ value) :
    fs_loop scale value exponent (fuel + 1)
      = fs_loop scale (value / scale) (exponent + 1) fuel := by
  simp only [fs_loop]
  rw [if_pos h]

/-- Helper: the `format_size` loop stops when the value is below the scale. -/
theorem fs_loop_stop (scale value : ℚ) (exponent fuel : Nat) (h : ¬ scale ≤ value) :
    fs_loop scale value exponent (fuel + 1) = (value, exponent) := by
  simp only [fs_loop]
  rw [if_neg h]

/-- Helper: dividing once more by the scale composes with the power. -/
theorem div_scale_pow (scale v : ℚ) (i : Nat) :
    v / scale / scale ^ i = v / scale ^ (i + 1) := by
  rw [div_div, ← pow_succ']

/-- Helper: full characterisation of the `format_size` loop.  It performs
some number `j ≤ fuel` of divisions; the result is the value scaled by
`scale ^ j` paired with the exponent advanced by `j`; every smaller number
of divisions leaves the value at or above the scale (so `j` is minimal);
and the loop stops either because the value dropped below the scale or
because the fuel (the prefix table) ran out. -/
theorem fs_loop_spec (scale : ℚ) (hs : 1 < scale) :
    ∀ (fuel : Nat) (value : ℚ) (exponent : Nat), 0 ≤ value →
    ∃ j, j ≤ fuel
      ∧ fs_loop scale value exponent fuel = (value / scale ^ j, exponent + j)
      ∧ (∀ i, i < j → scale ≤ value / scale ^ i)
      ∧ (value / scale ^ j < scale ∨ j = fuel) := by
  intro fuel
  induction fuel with
  | zero =>
    intro value exponent hv
    exact ⟨0, le_refl 0, by simp [fs_loop],
      fun i hi => absurd hi (Nat.not_lt_zero i), Or.inr rfl⟩
  | succ fuel ih =>
    intro value exponent hv
    by_cases h : scale ≤ value
    · have hsc : (0 : ℚ) < scale := lt_trans zero_lt_one hs
      have hv2 : 0 ≤ value / scale := div_nonneg hv (le_of_lt hsc)
      obtain ⟨j, hj, heq, hmin, hstop⟩ := ih (value / scale) (exponent + 1) hv2
      refine ⟨j + 1, by omega, ?_, ?_, ?_⟩
      · rw [fs_loop_step scale value exponent fuel h, heq, div_scale_pow]
        have : exponent + 1 + j = exponent + (j + 1) := by omega
        rw [this]
      · intro i hi
        cases i with
        | zero => simpa using h
        | succ i =>
          have hmi := hmin i (by omega)
          rwa [div_scale_pow] at hmi
      · rcases hstop with hlt | hfe
        · left
          rwa [div_scale_pow] at hlt
        · right
          omega
    · refine ⟨0, Nat.zero_le _, ?_, fun i hi => absurd hi (Nat.not_lt_zero i),
        Or.inl ?_⟩
      · simp [fs_loop_stop scale value exponent fuel h]
      · rw [pow_zero, div_one]
        exact lt_of_not_le h

/-- Helper: the fractional digits of zero are empty at any fuel. -/
theorem frac_digits_zero : ∀ fuel, frac_digits 0 fuel = "" := by
  intro fuel
  cases fuel with
  | zero => rfl
  | succ f => simp [frac_digits]

/-- Helper: a Python float holding exactly 1 prints as the string 1.0. -/
theorem render_float_one : render_float 1 = "1.0" := by
  simp only [render_float]
  rw [show Int.floor (1 : ℚ) = 1 by norm_num]
  rw [show (1 : ℚ) - ((1 : ℤ) : ℚ) = 0 by norm_num]
  rw [frac_digits_zero]
  rfl

/-- Helper: Python round(1.0, 2) is exactly 1. -/
theorem py_round_one_two : py_round 1 2 = 1 := by
  simp only [py_round, round_half_even]
  norm_num

/-- Helper: Python round(1.0, 0) is exactly 1. -/
theorem py_round_one_zero : py_round 1 0 = 1 := by
  simp only [py_round, round_half_even]
  norm_num

/-- Helper: evaluation of format_size(1024, places=2, base=2). -/
theorem format_size_1024 : format_size 1024 (some 2) 2 = "1.0 KB" := by
  have e1 : fs_scale 2 = 1024 := by norm_num [fs_scale]
  have e2 : fs_loop 1024 1024 0 5 = (1, 1) := by
    have s1 := fs_loop_step 1024 1024 0 4 (by norm_num)
    rw [show (1024 : ℚ) / 1024 = 1 by norm_num] at s1
    have s2 := fs_loop_stop 1024 1 1 3 (by norm_num)
    exact s1.trans s2
  simp only [format_size, e1, prefixes]
  norm_num [e2, py_round_one_two, render_float_one]
  rfl

/-- Helper: evaluation of format_size(1000, places=2, base=10). -/
theorem format_size_1000 : format_size 1000 (some 2) 10 = "1.0 KiB" := by
  have e1 : fs_scale 10 = 1000 := by norm_num [fs_scale]
  have e2 : fs_loop 1000 1000 0 5 = (1, 1) := by
    have s1 := fs_loop_step 1000 1000 0 4 (by norm_num)
    rw [show (1000 : ℚ) / 1000 = 1 by norm_num] at s1
    have s2 := fs_loop_stop 1000 1 1 3 (by norm_num)
    exact s1.trans s2
  simp only [format_size, e1, prefixes]
  norm_num [e2, py_round_one_two, render_float_one]
  rfl

/-- Helper: evaluation of format_size(1, places=0, base=2). -/
theorem format_size_one : format_size 1 (some 0) 2 = "1 B" := by
  have e1 : fs_scale 2 = 1024 := by norm_num [fs_scale]
  have e2 : fs_loop 1024 1 0 5 = (1, 0) := fs_loop_stop 1024 1 0 4 (by norm_num)
  simp only [format_size, e1, prefixes]
  norm_num [e2, py_round_one_zero]
  rfl

/-- Claim C9: for every non-negative byte count and base 2 or 10, the
`format_size` loop picks the smallest unit whose scaled value is below the
scale threshold (the scaled value is the count divided by the unit's power
of the scale, every smaller unit leaves it at or above the threshold), except
that the largest unit (exponent 5, prefix P) absorbs any overflow
unscaled; and concretely `format_size(1024, base=2) = "1.0 KB"`,
`format_size(1000, base=10) = "1.0 KiB"`, `format_size(1, places=0) = "1 B"`. -/
theorem format_size_spec (num : ℚ) (base : Nat) (h0 : 0 ≤ num)
    (hb : base = 2 ∨ base = 10) :
    ((fs_loop (fs_scale base) num 0 5).1
        = num / fs_scale base ^ (fs_loop (fs_scale base) num 0 5).2
      ∧ (fs_loop (fs_scale base) num 0 5).2 ≤ 5
      ∧ (∀ e, e < (fs_loop (fs_scale base) num 0 5).2 →
          fs_scale base ≤ num / fs_scale base ^ e)
      ∧ ((fs_loop (fs_scale base) num 0 5).1 < fs_scale base
          ∨ (fs_loop (fs_scale base) num 0 5).2 = 5))
    ∧ format_size 1024 (some 2) 2 = "1.0 KB"
    ∧ format_size 1000 (some 2) 10 = "1.0 KiB"
    ∧ format_size 1 (some 0) 2 = "1 B" := by
  have hs : 1 < fs_scale base := by
    rcases hb with hb | hb <;> norm_num [fs_scale, hb]
  obtain ⟨j, hj, heq, hmin, hstop⟩ := fs_loop_spec (fs_scale base) hs 5 num 0 h0
  refine ⟨⟨?_, ?_, ?_, ?_⟩, format_size_1024, format_size_1000, format_size_one⟩
  · rw [heq]
    simp
  · rw [heq]
    simpa using hj
  · intro e he
    rw [heq] at he
    exact hmin e (by simpa using he)
  · rw [heq]
    rcases hstop with hlt | hfe
    · exact Or.inl hlt
    · exact Or.inr (by simpa using hfe)

/-- Witness for `format_size_spec` at 1536 bytes, base 2. -/
theorem format_size_witness :
    (0 : ℚ) ≤ 1536 ∧ (2 = 2 ∨ 2 = 10)
    ∧ (((fs_loop (fs_scale 2) 1536 0 5).1
          = 1536 / fs_scale 2 ^ (fs_loop (fs_scale 2) 1536 0 5).2
        ∧ (fs_loop (fs_scale 2) 1536 0 5).2 ≤ 5
        ∧ (∀ e, e < (fs_loop (fs_scale 2) 1536 0 5).2 →
            fs_scale 2 ≤ 1536 / fs_scale 2 ^ e)
        ∧ ((fs_loop (fs_scale 2) 1536 0 5).1 < fs_scale 2
            ∨ (fs_loop (fs_scale 2) 1536 0 5).2 = 5))
      ∧ format_size 1024 (some 2) 2 = "1.0 KB"
      ∧ format_size 1000 (some 2) 10 = "1.0 KiB"
      ∧ format_size 1 (some 0) 2 = "1 B") :=
  ⟨by decide, Or.inl rfl, format_size_spec 1536 2 (by decide) (Or.inl rfl)⟩

end ImageManage
